import Mathlib

/-!
Shallow embedding of the PolyStudio stream-translation core
(`backend/app/services/stream_processor.py` and
`backend/app/services/agent_service.py`) and proofs of the spec claims.

Python dictionaries are modelled as insertion-ordered association lists;
`dict.update` is a left fold of key-overwriting inserts, which matches
CPython semantics (an existing key keeps its position, new keys append).
Python truthiness of optional strings (`not x` true for `None` and `""`)
is modelled on `Option String`.  Exceptions raised while handling one
unit are modelled by explicit `raising` constructors: the Python code
catches any exception of a unit inside the unit handler and yields a
single error event, so a raising unit is observationally one error
record.  SSE framing (`data: <json>\n\n`) is abstracted to the record
payloads; the literal terminal sentinel `data: [DONE]\n\n` is the
`Record.done` constructor.
-/

/-- A JSON-ish scalar value, enough to populate tool-call argument
mappings and tool-result contents. -/
inductive JVal where
  | s (v : String)
  | n (v : Int)
  | b (v : Bool)
  | null
deriving DecidableEq, Repr

/-- A Python dict with string keys, as an insertion-ordered assoc list. -/
abbrev ArgsDict := List (String × JVal)

/-- Lookup of a key in an assoc list (first match), i.e. `d[k]` / `k in d`. -/
def dict_get (k : String) : List (String × α) → Option α
  | [] => none
  | p :: rest => if p.1 = k then some p.2 else dict_get k rest

/-- `d[k] = v` on a dict: overwrite in place if the key exists, else append.
This is CPython assignment semantics for insertion-ordered dicts. -/
def dict_set (m : ArgsDict) (k : String) (v : JVal) : ArgsDict :=
  if m.any (fun p => p.1 = k) then
    m.map (fun p => if p.1 = k then (k, v) else p)
  else m ++ [(k, v)]

/-- `m.update(src)`: fold `src` into `m` key by key, later keys overwriting. -/
def dict_update (m src : ArgsDict) : ArgsDict :=
  src.foldl (fun a p => dict_set a p.1 p.2) m

/-- One entry of `message_chunk.tool_calls` (a dict or ToolCall object):
`id` and `name` may be absent/None (modelled `none`) or empty. -/
structure ToolCallEntry where
  id : Option String
  name : Option String
  args : ArgsDict
deriving DecidableEq, Repr

/-- One entry of `message_chunk.tool_call_chunks`, a dict with optional
`index`, `id`, `args` keys (`chunk_dict.get(...)`). -/
structure TCChunkEntry where
  index : Option Int
  id : Option String
  args : Option String
deriving DecidableEq, Repr

/-- A message of the LangGraph state carried by a `values` chunk.
`internal_id` stands for the internal-only bookkeeping fields that the
wire shape strips. -/
structure StateMsg where
  role : String
  content : String
  tool_calls : List ToolCallEntry
  internal_id : String
deriving DecidableEq, Repr

/-- The wire shape of a snapshot message: role/content/tool_calls only. -/
structure WireMsg where
  role : String
  content : String
  tool_calls : List ToolCallEntry
deriving DecidableEq, Repr

/-- Modelled from the spec: `convert_to_openai_messages` is imported from
`langchain_core.messages` and is not part of this repository; per the spec
it normalizes snapshot messages "into the wire message shape
(role/content/tool_calls fields only, stripping any internal-only
fields)". -/
def convert_to_openai_messages (msgs : List StateMsg) : List WireMsg :=
  msgs.map (fun m => ⟨m.role, m.content, m.tool_calls⟩)

/-- One raw message object as seen by `_handle_message_chunk`:
a `ToolMessage`, an `AIMessageChunk` (with optional text content, a
`tool_calls` list and a `tool_call_chunks` list), any other object
(which matches no branch and yields nothing), or a unit whose handling
raises (modelling the `except` clause of `_handle_message_chunk`). -/
inductive MsgChunk where
  | toolMsg (tool_call_id : String) (content : JVal)
  | aiChunk (content : Option String) (tool_calls : List ToolCallEntry)
      (tool_call_chunks : List TCChunkEntry)
  | other
  | raising (msg : String)
deriving DecidableEq, Repr

/-- The second element of a two-element tuple chunk: a state dict (we carry
its `messages` value; a dict without the key behaves as `messages = []`),
a list of raw message chunks, or a single message object. -/
inductive ChunkData where
  | dict (messages : List StateMsg)
  | list (msgs : List MsgChunk)
  | single (m : MsgChunk)
deriving DecidableEq, Repr

/-- One inbound unit of `agent.astream`: a two-element tagged tuple, a bare
list of message chunks, a single message object, or a unit whose shape
inspection raises (modelling the `except` clause of `_handle_chunk`). -/
inductive Chunk where
  | tagged (tag : String) (data : ChunkData)
  | msgList (msgs : List MsgChunk)
  | single (m : MsgChunk)
  | raising (msg : String)
deriving DecidableEq, Repr

/-- An output record, one per SSE `data:` frame. -/
inductive Record where
  | delta (content : String)
  | toolCall (id : String) (name : String) (arguments : ArgsDict)
  | toolCallChunk (index : Int) (id : Option String) (args : String)
  | toolResult (tool_call_id : String) (content : JVal)
  | messages (msgs : List WireMsg)
  | error (msg : String)
  | done
deriving DecidableEq, Repr

/-- The per-call-id argument accumulator `self.tool_call_args`. -/
abbrev ArgsMap := List (String × ArgsDict)

/-- The mutable state of one `StreamProcessor` instance (the fields the
stream functions read and write: `text_buffer` and `tool_call_args`). -/
structure ProcState where
  text_buffer : String
  tool_call_args : ArgsMap
deriving DecidableEq, Repr

/-- The freshly constructed `StreamProcessor` state. -/
def initProcState : ProcState := ⟨"", []⟩

/-- The punctuation string `"。！？.!?"` of the log-flush condition. -/
def flushPunct : List Char := ['。', '！', '？', '.', '!', '?']

/-- The flush condition on `text_buffer` after appending a delta. -/
def should_flush (buf : String) : Bool :=
  buf.contains '\n' ||
    (decide (50 < buf.length) && flushPunct.any (fun p => buf.contains p))

/-- Lines 193-223 of `stream_processor.py`: the text-content part of
`_handle_message_chunk` for an `AIMessageChunk`.  Non-None, non-empty
content is appended to the log buffer (flushed on the log condition) and
emitted as one `delta` record; otherwise nothing is emitted. -/
def handle_text_content (st : ProcState) (content : Option String) :
    ProcState × List Record :=
  match content with
  | none => (st, [])
  | some c =>
    if c = "" then (st, [])
    else
      let buf := st.text_buffer ++ c
      let buf1 := if should_flush buf then "" else buf
      ({ st with text_buffer := buf1 }, [Record.delta c])

/-- Python truthiness of an optional string: `None` and `""` are falsy. -/
def pyTruthy : Option String → Bool
  | none => false
  | some s => s ≠ ""

/-- The `not tool_name or not tool_call_id` guard of lines 241-243. -/
def invalidToolCall (tc : ToolCallEntry) : Bool :=
  !(pyTruthy tc.name) || !(pyTruthy tc.id)

/-- Lines 226-265 of `stream_processor.py`, the body of the
`for tool_call in message_chunk.tool_calls` loop for one entry:
skip entries with falsy name or id; otherwise create the accumulator
entry if absent, merge non-empty args into it, and emit one `tool_call`
record carrying the full accumulated args. -/
def handle_tool_call (acc : ArgsMap) (tc : ToolCallEntry) :
    ArgsMap × List Record :=
  if invalidToolCall tc then (acc, [])
  else
    let cid := tc.id.getD ""
    let name := tc.name.getD ""
    let acc1 := if (dict_get cid acc).isNone then acc ++ [(cid, [])] else acc
    let acc2 :=
      if tc.args = [] then acc1
      else acc1.map (fun p => if p.1 = cid then (cid, dict_update p.2 tc.args) else p)
    let final_args := (dict_get cid acc2).getD []
    (acc2, [Record.toolCall cid name final_args])

/-- The whole `for tool_call in message_chunk.tool_calls` loop. -/
def run_tool_calls (acc : ArgsMap) : List ToolCallEntry → ArgsMap × List Record
  | [] => (acc, [])
  | tc :: rest =>
    let r1 := handle_tool_call acc tc
    let r2 := run_tool_calls r1.1 rest
    (r2.1, r1.2 ++ r2.2)

/-- Lines 268-295 of `stream_processor.py`, the body of the
`for tool_call_chunk in message_chunk.tool_call_chunks` loop for one
dict-shaped entry: emit a `tool_call_chunk` record iff `args` is truthy;
`index` defaults to 0.  No processor state is read or written. -/
def handle_tool_call_chunk (e : TCChunkEntry) : List Record :=
  match e.args with
  | none => []
  | some a =>
    if a = "" then []
    else [Record.toolCallChunk (e.index.getD 0) e.id a]

/-- Lines 170-305 of `stream_processor.py`: `_handle_message_chunk`.
A `ToolMessage` deletes the accumulator entry for its call id and emits
one `tool_result` record; an `AIMessageChunk` emits its text delta, then
its tool-call records, then its tool-call-chunk records; any other object
emits nothing; a raising unit is caught by the `except` clause, which
emits one error record. -/
def handle_message_chunk (st : ProcState) : MsgChunk → ProcState × List Record
  | MsgChunk.toolMsg cid content =>
    ({ st with tool_call_args := st.tool_call_args.filter (fun p => p.1 ≠ cid) },
      [Record.toolResult cid content])
  | MsgChunk.aiChunk content tcs tccs =>
    let r1 := handle_text_content st content
    let r2 := run_tool_calls r1.1.tool_call_args tcs
    let r3 := (tccs.map handle_tool_call_chunk).flatten
    ({ r1.1 with tool_call_args := r2.1 }, r1.2 ++ r2.2 ++ r3)
  | MsgChunk.other => (st, [])
  | MsgChunk.raising msg => (st, [Record.error ("处理消息chunk时出错: " ++ msg)])

/-- Folding `_handle_message_chunk` over a list of message objects. -/
def run_message_chunks (st : ProcState) : List MsgChunk → ProcState × List Record
  | [] => (st, [])
  | m :: rest =>
    let r1 := handle_message_chunk st m
    let r2 := run_message_chunks r1.1 rest
    (r2.1, r1.2 ++ r2.2)

/-- Lines 155-168 of `stream_processor.py`: `_handle_values_chunk`.
`chunk_data.get("messages", [])`; if non-empty, convert to the wire shape
and emit one `messages` record, else emit nothing. -/
def handle_values_chunk (msgs : List StateMsg) : List Record :=
  if msgs = [] then []
  else [Record.messages (convert_to_openai_messages msgs)]

/-- Lines 100-153 of `stream_processor.py`: `_handle_chunk`.  A tagged
two-element tuple dispatches on the tag: `"values"` with a dict goes to
`_handle_values_chunk` (a non-dict payload has no `.get`, raising an
AttributeError caught by the `except` clause, which emits one error
record); any other tag iterates a list payload through
`_handle_message_chunk` (a dict payload iterates its string keys, none of
which is a message object, so nothing is emitted), or handles a single
payload directly.  A bare list iterates its members; anything else is
handled as a single message object; a raising unit is caught by the
`except` clause, which emits one error record. -/
def handle_chunk (st : ProcState) : Chunk → ProcState × List Record
  | Chunk.tagged tag d =>
    if tag = "values" then
      match d with
      | ChunkData.dict msgs => (st, handle_values_chunk msgs)
      | ChunkData.list _ => (st, [Record.error "处理chunk时出错: AttributeError"])
      | ChunkData.single _ => (st, [Record.error "处理chunk时出错: AttributeError"])
    else
      match d with
      | ChunkData.dict _ => (st, [])
      | ChunkData.list msgs => run_message_chunks st msgs
      | ChunkData.single m => handle_message_chunk st m
  | Chunk.msgList msgs => run_message_chunks st msgs
  | Chunk.single m => handle_message_chunk st m
  | Chunk.raising msg => (st, [Record.error ("处理chunk时出错: " ++ msg)])

/-- The `async for chunk in agent.astream(...)` loop of `process_stream`,
folding `_handle_chunk` over the inbound chunks in arrival order and
yielding every record immediately. -/
def run_chunks (st : ProcState) : List Chunk → ProcState × List Record
  | [] => (st, [])
  | c :: rest =>
    let r1 := handle_chunk st c
    let r2 := run_chunks r1.1 rest
    (r2.1, r1.2 ++ r2.2)

/-- A message of the inbound HTTP conversation, a dict whose `role` and
`content` keys may be absent (`msg.get("role")`, `msg.get("content", "")`). -/
structure InMsg where
  role : Option String
  content : Option String
deriving DecidableEq, Repr

/-- A LangChain conversation message built by `process_stream`. -/
inductive LCMsg where
  | human (content : String)
  | assistant (content : String)
deriving DecidableEq, Repr

/-- Lines 52-57 of `stream_processor.py`: the conversion loop building
`langchain_messages` from the inbound `messages` list. -/
def to_langchain_messages (messages : List InMsg) : List LCMsg :=
  messages.foldl (fun acc msg =>
    if msg.role = some "user" then acc ++ [LCMsg.human (msg.content.getD "")]
    else if msg.role = some "assistant" then acc ++ [LCMsg.assistant (msg.content.getD "")]
    else acc) []

/-- Lines 33-98 of `stream_processor.py`: `StreamProcessor.process_stream`
on a fresh processor.  The opaque agent's event source is abstracted as
the list of chunks it yields before either ending normally (`err = none`)
or raising into the driver loop (`err = some e`).  On normal exhaustion
the literal terminal sentinel (`Record.done`) is the last record; on a
driver-level exception the `except` clause emits one error record and the
generator ends, with no terminal sentinel. -/
def process_stream (chunks : List Chunk) (err : Option String) : List Record :=
  let recs := (run_chunks initProcState chunks).2
  match err with
  | none => recs ++ [Record.done]
  | some e => recs ++ [Record.error e]

/-- Lines 134-171 of `agent_service.py`: `process_chat_stream`.
`setupErr` models an exception raised by `create_agent()` (or other setup
code) before the processor stream starts: the `except` clause emits one
error record followed by the terminal sentinel.  Otherwise every record
of `process_stream` is forwarded unchanged; exceptions inside
`process_stream` are caught there and never reach this handler. -/
def process_chat_stream (setupErr : Option String) (chunks : List Chunk)
    (err : Option String) : List Record :=
  match setupErr with
  | some e => [Record.error e, Record.done]
  | none => process_stream chunks err

/-! ## Shared lemmas -/

theorem getLast?_append_singleton (l : List α) (a : α) :
    (l ++ [a]).getLast? = some a := by
  induction l with
  | nil => rfl
  | cons x xs ih =>
    cases xs with
    | nil => rfl
    | cons y ys =>
      rw [List.cons_append, List.cons_append, List.getLast?_cons_cons ]
      exact ih

theorem run_tool_calls_append (acc : ArgsMap) (a b : List ToolCallEntry) :
    run_tool_calls acc (a ++ b) =
      ((run_tool_calls (run_tool_calls acc a).1 b).1,
       (run_tool_calls acc a).2 ++ (run_tool_calls (run_tool_calls acc a).1 b).2) := by
  induction a generalizing acc with
  | nil => simp [run_tool_calls]
  | cons tc rest ih => simp [run_tool_calls, ih]

theorem run_message_chunks_append (st : ProcState) (a b : List MsgChunk) :
    run_message_chunks st (a ++ b) =
      ((run_message_chunks (run_message_chunks st a).1 b).1,
       (run_message_chunks st a).2 ++ (run_message_chunks (run_message_chunks st a).1 b).2) := by
  induction a generalizing st with
  | nil => simp [run_message_chunks]
  | cons m rest ih => simp [run_message_chunks, ih]

theorem run_chunks_append (st : ProcState) (a b : List Chunk) :
    run_chunks st (a ++ b) =
      ((run_chunks (run_chunks st a).1 b).1,
       (run_chunks st a).2 ++ (run_chunks (run_chunks st a).1 b).2) := by
  induction a generalizing st with
  | nil => simp [run_chunks]
  | cons c rest ih => simp [run_chunks, ih]

theorem done_not_mem_handle_text_content (st : ProcState) (c : Option String) :
    Record.done ∉ (handle_text_content st c).2 := by
  cases c with
  | none => simp [handle_text_content]
  | some s =>
    simp only [handle_text_content]
    split <;> simp

theorem done_not_mem_handle_tool_call (acc : ArgsMap) (tc : ToolCallEntry) :
    Record.done ∉ (handle_tool_call acc tc).2 := by
  unfold handle_tool_call
  split <;> simp

theorem done_not_mem_run_tool_calls (acc : ArgsMap) (tcs : List ToolCallEntry) :
    Record.done ∉ (run_tool_calls acc tcs).2 := by
  induction tcs generalizing acc with
  | nil => simp [run_tool_calls]
  | cons tc rest ih =>
    simp only [run_tool_calls, List.mem_append, not_or]
    exact ⟨done_not_mem_handle_tool_call acc tc, ih _⟩

theorem done_not_mem_handle_tool_call_chunk (e : TCChunkEntry) :
    Record.done ∉ handle_tool_call_chunk e := by
  unfold handle_tool_call_chunk
  cases e.args with
  | none => simp
  | some a => split <;> simp

theorem done_not_mem_handle_message_chunk (st : ProcState) (m : MsgChunk) :
    Record.done ∉ (handle_message_chunk st m).2 := by
  cases m with
  | toolMsg cid content => simp [handle_message_chunk]
  | aiChunk c tcs tccs =>
    simp only [handle_message_chunk, List.mem_append, not_or]
    refine ⟨⟨done_not_mem_handle_text_content _ _, done_not_mem_run_tool_calls _ _⟩, ?_⟩
    simp only [List.mem_flatten, List.mem_map, not_exists, not_and]
    rintro l ⟨e, _, rfl⟩
    exact done_not_mem_handle_tool_call_chunk e
  | other => simp [handle_message_chunk]
  | raising msg => simp [handle_message_chunk]

theorem done_not_mem_run_message_chunks (st : ProcState) (msgs : List MsgChunk) :
    Record.done ∉ (run_message_chunks st msgs).2 := by
  induction msgs generalizing st with
  | nil => simp [run_message_chunks]
  | cons m rest ih =>
    simp only [run_message_chunks, List.mem_append, not_or]
    exact ⟨done_not_mem_handle_message_chunk st m, ih _⟩

theorem done_not_mem_handle_chunk (st : ProcState) (c : Chunk) :
    Record.done ∉ (handle_chunk st c).2 := by
  cases c with
  | tagged tag d =>
    simp only [handle_chunk]
    split
    · cases d with
      | dict msgs =>
        simp only [handle_values_chunk]
        split <;> simp
      | list msgs => simp
      | single m => simp
    · cases d with
      | dict msgs => simp
      | list msgs => exact done_not_mem_run_message_chunks st msgs
      | single m => exact done_not_mem_handle_message_chunk st m
  | msgList msgs => exact done_not_mem_run_message_chunks st msgs
  | single m => exact done_not_mem_handle_message_chunk st m
  | raising msg => simp [handle_chunk]

theorem done_not_mem_run_chunks (st : ProcState) (chunks : List Chunk) :
    Record.done ∉ (run_chunks st chunks).2 := by
  induction chunks generalizing st with
  | nil => simp [run_chunks]
  | cons c rest ih =>
    simp only [run_chunks, List.mem_append, not_or]
    exact ⟨done_not_mem_handle_chunk st c, ih _⟩

/-! ## Claim theorems -/

/-- C1: the claim states that every invocation of the Stream Driver emits
the terminal marker exactly once, as the last record, on both the success
and the failure path, with an error record first on the failure path.
The code satisfies this on the success path and in `process_chat_stream`
setup failures, but the exception handler of
`StreamProcessor.process_stream` emits only the error record and ends the
generator: a driver-level exception yields a stream whose last record is
the error record and which contains no terminal marker at all. -/
theorem C1_terminal_marker_paths :
    (∀ chunks : List Chunk,
      (process_stream chunks none).getLast? = some Record.done ∧
      (process_stream chunks none).count Record.done = 1)
  ∧ (∀ (chunks : List Chunk) (e : String),
      (process_stream chunks (some e)).getLast? = some (Record.error e) ∧
      (process_stream chunks (some e)).count Record.done = 0)
  ∧ process_chat_stream (some "boom") [] none
      = [Record.error "boom", Record.done] := by
  refine ⟨fun chunks => ⟨getLast?_append_singleton _ _, ?_⟩,
          fun chunks e => ⟨getLast?_append_singleton _ _, ?_⟩, rfl⟩
  · show ((run_chunks initProcState chunks).2 ++ [Record.done]).count Record.done = 1
    rw [List.count_append, List.count_eq_zero.mpr (done_not_mem_run_chunks _ _)]
    rfl
  · refine List.count_eq_zero.mpr ?_
    show Record.done ∉ (run_chunks initProcState chunks).2 ++ [Record.error e]
    simp only [List.mem_append, List.mem_singleton, not_or]
    exact ⟨done_not_mem_run_chunks _ _, by simp⟩

/-- C6: an exception raised while classifying or translating one inbound
unit is caught at that unit's boundary: the unit contributes exactly one
error record, the processor state is untouched, and the surrounding
stream is exactly the stream with that unit replaced by its error record
— later units are still processed, from the same state.  Stated both at
the `_handle_chunk` level and at the `_handle_message_chunk` level. -/
theorem C6_unit_error_containment (st : ProcState) (msg : String)
    (pre post : List Chunk) (mpre mpost : List MsgChunk) :
    handle_chunk st (Chunk.raising msg)
      = (st, [Record.error ("处理chunk时出错: " ++ msg)])
  ∧ (run_chunks st (pre ++ Chunk.raising msg :: post)).2
      = (run_chunks st pre).2 ++ [Record.error ("处理chunk时出错: " ++ msg)]
        ++ (run_chunks (run_chunks st pre).1 post).2
  ∧ (run_chunks st (pre ++ Chunk.raising msg :: post)).1
      = (run_chunks st (pre ++ post)).1
  ∧ handle_message_chunk st (MsgChunk.raising msg)
      = (st, [Record.error ("处理消息chunk时出错: " ++ msg)])
  ∧ (run_message_chunks st (mpre ++ MsgChunk.raising msg :: mpost)).2
      = (run_message_chunks st mpre).2
        ++ [Record.error ("处理消息chunk时出错: " ++ msg)]
        ++ (run_message_chunks (run_message_chunks st mpre).1 mpost).2 := by
  refine ⟨rfl, ?_, ?_, rfl, ?_⟩
  · rw [run_chunks_append ]
    simp [run_chunks, handle_chunk]
  · rw [run_chunks_append, run_chunks_append ]
    simp [run_chunks, handle_chunk]
  · rw [run_message_chunks_append ]
    simp [run_message_chunks, handle_message_chunk]

/-- The per-entry record blocks of the tool-call loop, in source order,
each block computed from the accumulator state left by the previous
entries. -/
def tool_call_blocks (acc : ArgsMap) : List ToolCallEntry → List (List Record)
  | [] => []
  | tc :: rest =>
    (handle_tool_call acc tc).2 :: tool_call_blocks (handle_tool_call acc tc).1 rest

/-- The per-message record blocks of a message list, in arrival order. -/
def message_chunk_blocks (st : ProcState) : List MsgChunk → List (List Record)
  | [] => []
  | m :: rest =>
    (handle_message_chunk st m).2
      :: message_chunk_blocks (handle_message_chunk st m).1 rest

/-- The per-chunk record blocks of the driver loop, in arrival order. -/
def chunk_blocks (st : ProcState) : List Chunk → List (List Record)
  | [] => []
  | c :: rest =>
    (handle_chunk st c).2 :: chunk_blocks (handle_chunk st c).1 rest

theorem run_tool_calls_eq_blocks (acc : ArgsMap) (tcs : List ToolCallEntry) :
    (run_tool_calls acc tcs).2 = (tool_call_blocks acc tcs).flatten := by
  induction tcs generalizing acc with
  | nil => rfl
  | cons tc rest ih => simp [run_tool_calls, tool_call_blocks, ih]

theorem run_message_chunks_eq_blocks (st : ProcState) (msgs : List MsgChunk) :
    (run_message_chunks st msgs).2 = (message_chunk_blocks st msgs).flatten := by
  induction msgs generalizing st with
  | nil => rfl
  | cons m rest ih => simp [run_message_chunks, message_chunk_blocks, ih]

theorem run_chunks_eq_blocks (st : ProcState) (chunks : List Chunk) :
    (run_chunks st chunks).2 = (chunk_blocks st chunks).flatten := by
  induction chunks generalizing st with
  | nil => rfl
  | cons c rest ih => simp [run_chunks, chunk_blocks, ih]

/-- C2: the output preserves order.  Records of different inbound units
appear as the concatenation, in arrival order, of the units' own record
blocks, with no batching, reordering or look-ahead (stated at the driver
level, the message-list level and the tool-call-loop level), and inside
one AI chunk the text delta block precedes the tool-call block, which
precedes the tool-call-chunk block, the latter two in the source order of
their entries. -/
theorem C2_ordering (st : ProcState) (chunks : List Chunk)
    (msgs : List MsgChunk) (content : Option String)
    (tcs : List ToolCallEntry) (tccs : List TCChunkEntry) :
    (run_chunks st chunks).2 = (chunk_blocks st chunks).flatten
  ∧ (run_message_chunks st msgs).2 = (message_chunk_blocks st msgs).flatten
  ∧ (run_tool_calls st.tool_call_args tcs).2
      = (tool_call_blocks st.tool_call_args tcs).flatten
  ∧ (handle_message_chunk st (MsgChunk.aiChunk content tcs tccs)).2
      = (handle_text_content st content).2
        ++ (tool_call_blocks
              (handle_text_content st content).1.tool_call_args tcs).flatten
        ++ (tccs.map handle_tool_call_chunk).flatten :=
  ⟨run_chunks_eq_blocks st chunks,
   run_message_chunks_eq_blocks st msgs,
   run_tool_calls_eq_blocks _ tcs,
   by simp [handle_message_chunk, run_tool_calls_eq_blocks]⟩

/-! ## Dictionary lemmas -/

theorem dict_get_append (k : String) (a b : List (String × α)) :
    dict_get k (a ++ b) = (dict_get k a).or (dict_get k b) := by
  induction a with
  | nil => simp [dict_get]
  | cons p rest ih =>
    simp only [List.cons_append, dict_get]
    split <;> simp [ih]

theorem dict_get_isSome_of_any (k : String) (m : List (String × α))
    (h : m.any (fun p => p.1 = k) = true) : (dict_get k m).isSome = true := by
  induction m with
  | nil => simp at h
  | cons p rest ih =>
    simp only [List.any_cons, Bool.or_eq_true, decide_eq_true_eq] at h
    by_cases hp : p.1 = k
    · simp [dict_get, hp]
    · have := h.resolve_left hp
      simp [dict_get, hp, ih this]

theorem dict_get_eq_none_of_any_eq_false (k : String) (m : List (String × α))
    (h : m.any (fun p => p.1 = k) = false) : dict_get k m = none := by
  induction m with
  | nil => rfl
  | cons p rest ih =>
    simp only [List.any_cons, Bool.or_eq_false_iff, decide_eq_false_iff_not] at h
    simp [dict_get, h.1, ih h.2]

theorem dict_get_map_overwrite_self (k : String) (g : α → α)
    (m : List (String × α)) :
    dict_get k (m.map (fun p => if p.1 = k then (k, g p.2) else p))
      = (dict_get k m).map g := by
  induction m with
  | nil => rfl
  | cons p rest ih =>
    by_cases hp : p.1 = k
    · simp [dict_get, hp]
    · simp [dict_get, hp, ih]

theorem dict_get_map_overwrite_ne (k cid : String) (hk : k ≠ cid) (g : α → α)
    (m : List (String × α)) :
    dict_get k (m.map (fun p => if p.1 = cid then (cid, g p.2) else p))
      = dict_get k m := by
  induction m with
  | nil => rfl
  | cons p rest ih =>
    have hck : ¬ cid = k := fun h => hk h.symm
    by_cases hp : p.1 = cid
    · have hkp : ¬ p.1 = k := by rw [hp ]; exact hck
      simp only [List.map_cons, if_pos hp, dict_get]
      rw [if_neg hck, if_neg hkp ]
      exact ih
    · simp only [List.map_cons, if_neg hp]
      simp only [dict_get]
      split <;> simp [ih]

theorem dict_get_dict_set_self (m : ArgsDict) (k : String) (v : JVal) :
    dict_get k (dict_set m k v) = some v := by
  unfold dict_set
  split
  · rename_i h
    rw [dict_get_map_overwrite_self k (fun _ => v) m ]
    obtain ⟨w, hw⟩ := Option.isSome_iff_exists.mp (dict_get_isSome_of_any k m h)
    rw [hw ]
    rfl
  · rename_i h
    have hf : (m.any fun p => p.1 = k) = false := by
      cases hh : (m.any fun p => p.1 = k) with
      | false => rfl
      | true => exact absurd hh h
    rw [dict_get_append, dict_get_eq_none_of_any_eq_false k m hf]
    simp [dict_get]

theorem dict_get_dict_set_ne (m : ArgsDict) (k k' : String) (hk : k ≠ k')
    (v : JVal) : dict_get k (dict_set m k' v) = dict_get k m := by
  unfold dict_set
  split
  · exact dict_get_map_overwrite_ne k k' hk (fun _ => v) m
  · rw [dict_get_append ]
    have h2 : dict_get k [(k', v)] = none := by
      have hkk : ¬ k' = k := fun h => hk h.symm
      simp [dict_get, hkk]
    rw [h2 ]
    cases dict_get k m <;> rfl

theorem dict_update_nil (m : ArgsDict) : dict_update m [] = m := rfl

theorem dict_update_cons (m : ArgsDict) (p : String × JVal)
    (rest : ArgsDict) :
    dict_update m (p :: rest) = dict_update (dict_set m p.1 p.2) rest := rfl

theorem dict_get_dict_update_isSome (src m : ArgsDict) (k : String)
    (h : (dict_get k m).isSome = true) :
    (dict_get k (dict_update m src)).isSome = true := by
  induction src generalizing m with
  | nil => exact h
  | cons p rest ih =>
    rw [dict_update_cons ]
    refine ih _ ?_
    by_cases hp : k = p.1
    · rw [hp, dict_get_dict_set_self ]
      rfl
    · rw [dict_get_dict_set_ne _ _ _ hp ]
      exact h

/-! ## Tool-call handling lemmas -/

theorem invalidToolCall_valid (cid name : String) (args : ArgsDict)
    (hc : cid ≠ "") (hn : name ≠ "") :
    invalidToolCall ⟨some cid, some name, args⟩ = false := by
  simp [invalidToolCall, pyTruthy, hc, hn]

theorem handle_tool_call_valid (acc : ArgsMap) (cid name : String)
    (args : ArgsDict) (hc : cid ≠ "") (hn : name ≠ "") :
    dict_get cid (handle_tool_call acc ⟨some cid, some name, args⟩).1
        = some (dict_update ((dict_get cid acc).getD []) args)
  ∧ (handle_tool_call acc ⟨some cid, some name, args⟩).2
        = [Record.toolCall cid name
            (dict_update ((dict_get cid acc).getD []) args)]
  ∧ ∀ k, k ≠ cid →
      dict_get k (handle_tool_call acc ⟨some cid, some name, args⟩).1
        = dict_get k acc := by
  have hguard := invalidToolCall_valid cid name args hc hn
  simp only [handle_tool_call, hguard, Bool.false_eq_true, if_false, Option.getD_some]
  cases hacc : dict_get cid acc with
  | none =>
    have hbase : dict_get cid (acc ++ [(cid, [])]) = some [] := by
      rw [dict_get_append, hacc ]
      simp [dict_get]
    by_cases hargs : args = []
    · subst hargs
      simp only [hacc, Option.isNone_none, if_true, Option.getD_none, dict_update_nil]
      refine ⟨by simpa using hbase, by simp [hbase ], fun k hk => ?_⟩
      rw [dict_get_append ]
      have h2 : dict_get k [(cid, ([] : ArgsDict))] = none := by
        have hkk : ¬ cid = k := fun h => hk h.symm
        simp [dict_get, hkk]
      rw [h2 ]
      cases dict_get k acc <;> rfl
    · simp only [hacc, Option.isNone_none, if_true, if_neg hargs, Option.getD_none]
      have hm := dict_get_map_overwrite_self cid (fun d => dict_update d args)
        (acc ++ [(cid, [])])
      rw [hbase ] at hm
      have hmapacc : dict_get cid (List.map
          (fun p => if p.1 = cid then (cid, dict_update p.2 args) else p) acc)
          = none := by
        rw [dict_get_map_overwrite_self cid (fun d => dict_update d args) acc,
          hacc ]
        rfl
      refine ⟨by simpa using hm,
        by simp [dict_get_append, hmapacc, dict_get], fun k hk => ?_⟩
      rw [dict_get_map_overwrite_ne k cid hk (fun d => dict_update d args) _ ]
      rw [dict_get_append ]
      have h2 : dict_get k [(cid, ([] : ArgsDict))] = none := by
        have hkk : ¬ cid = k := fun h => hk h.symm
        simp [dict_get, hkk]
      rw [h2 ]
      cases dict_get k acc <;> rfl
  | some d =>
    have hns : (dict_get cid acc).isNone = false := by rw [hacc ]; rfl
    by_cases hargs : args = []
    · subst hargs
      simp only [hacc, hns, Bool.false_eq_true, if_false, if_true, Option.getD_some,
        dict_update_nil]
      exact ⟨by simpa using hacc, by simp [hacc ], fun k hk => rfl⟩
    · simp only [hacc, hns, Bool.false_eq_true, if_false, if_neg hargs,
        Option.getD_some]
      have hm := dict_get_map_overwrite_self cid (fun d => dict_update d args) acc
      rw [hacc ] at hm
      exact ⟨by simpa using hm, by simp [hm ], fun k hk =>
        dict_get_map_overwrite_ne k cid hk (fun d => dict_update d args) acc⟩

theorem handle_tool_call_invalid (acc : ArgsMap) (tc : ToolCallEntry)
    (h : invalidToolCall tc = true) : handle_tool_call acc tc = (acc, []) := by
  simp [handle_tool_call, h]

theorem dict_get_filter_self (cid : String) (m : List (String × α)) :
    dict_get cid (m.filter (fun p => p.1 ≠ cid)) = none := by
  induction m with
  | nil => rfl
  | cons p rest ih =>
    rw [List.filter_cons ]
    by_cases hp : p.1 = cid
    · rw [if_neg (by simp [hp])]
      exact ih
    · rw [if_pos (by simp [hp])]
      simp only [dict_get]
      rw [if_neg hp ]
      exact ih

theorem dict_get_filter_ne (cid k : String) (hk : k ≠ cid)
    (m : List (String × α)) :
    dict_get k (m.filter (fun p => p.1 ≠ cid)) = dict_get k m := by
  induction m with
  | nil => rfl
  | cons p rest ih =>
    rw [List.filter_cons ]
    by_cases hp : p.1 = cid
    · have hpk : ¬ p.1 = k := by rw [hp ]; exact fun h => hk h.symm
      rw [if_neg (by simp [hp])]
      rw [ih ]
      simp only [dict_get]
      rw [if_neg hpk ]
    · rw [if_pos (by simp [hp])]
      simp only [dict_get]
      by_cases hpk : p.1 = k
      · rw [if_pos hpk, if_pos hpk ]
      · rw [if_neg hpk, if_neg hpk ]
        exact ih

theorem filter_ne_idem (cid : String) (m : List (String × α)) :
    ((m.filter (fun p => p.1 ≠ cid)).filter (fun p => p.1 ≠ cid))
      = m.filter (fun p => p.1 ≠ cid) := by
  induction m with
  | nil => rfl
  | cons p rest ih =>
    rw [List.filter_cons ]
    by_cases hp : p.1 = cid
    · rw [if_neg (by simp [hp])]
      exact ih
    · rw [if_pos (by simp [hp]), List.filter_cons, if_pos (by simp [hp]), ih ]

/-- C3: processing a `ToolCallRequest` with non-empty call id and name
merges its args into the accumulator entry for that call id (creating the
entry if absent; a shallow per-key overwrite; an empty args mapping
changes nothing and never removes existing keys) and emits exactly one
`tool_call` record whose arguments equal the full merged mapping; in
particular merging a=1 then b=2 then a=1 for one call id accumulates
exactly a=1, b=2. -/
theorem C3_argument_merge (acc : ArgsMap) (cid name : String)
    (args m : ArgsDict) (hc : cid ≠ "") (hn : name ≠ "") :
    (handle_tool_call acc ⟨some cid, some name, args⟩).2
      = [Record.toolCall cid name
          (dict_update ((dict_get cid acc).getD []) args)]
  ∧ dict_get cid (handle_tool_call acc ⟨some cid, some name, args⟩).1
      = some (dict_update ((dict_get cid acc).getD []) args)
  ∧ (∀ k, k ≠ cid →
      dict_get k (handle_tool_call acc ⟨some cid, some name, args⟩).1
        = dict_get k acc)
  ∧ dict_update m [] = m
  ∧ (∀ k, (dict_get k m).isSome = true →
      (dict_get k (dict_update m args)).isSome = true)
  ∧ dict_get "c1" (run_tool_calls []
      [⟨some "c1", some "gen", [("a", JVal.n 1)]⟩,
       ⟨some "c1", some "gen", [("b", JVal.n 2)]⟩,
       ⟨some "c1", some "gen", [("a", JVal.n 1)]⟩]).1
      = some [("a", JVal.n 1), ("b", JVal.n 2)] := by
  obtain ⟨h1, h2, h3⟩ := handle_tool_call_valid acc cid name args hc hn
  exact ⟨h2, h1, h3, dict_update_nil m,
    fun k hk => dict_get_dict_update_isSome args m k hk, by rfl ⟩

/-- C3 witness at a concrete input: one request for call id c1 with args
a=1 against an empty accumulator emits one `tool_call` record with the
merged args. -/
theorem C3_argument_merge_witness :
    (handle_tool_call [] ⟨some "c1", some "gen", [("a", JVal.n 1)]⟩).2
      = [Record.toolCall "c1" "gen"
          (dict_update ((dict_get "c1" ([] : ArgsMap)).getD [])
            [("a", JVal.n 1)])] :=
  (C3_argument_merge [] "c1" "gen" [("a", JVal.n 1)] [] (by decide)
    (by decide)).1

/-- C4: processing a `ToolResult` for call id X deletes the accumulator
entry for X if present (a no-op when absent, other call ids untouched, so
release is idempotent) and emits exactly one `tool_result` record; after
it the accumulator holds no entry for X, and a later request for X
starts from a fresh, empty entry. -/
theorem C4_release (st : ProcState) (cid : String) (content : JVal)
    (args : ArgsDict) :
    (handle_message_chunk st (MsgChunk.toolMsg cid content)).2
      = [Record.toolResult cid content]
  ∧ dict_get cid
      (handle_message_chunk st (MsgChunk.toolMsg cid content)).1.tool_call_args
      = none
  ∧ (∀ k, k ≠ cid →
      dict_get k
        (handle_message_chunk st (MsgChunk.toolMsg cid content)).1.tool_call_args
        = dict_get k st.tool_call_args)
  ∧ (handle_message_chunk
        (handle_message_chunk st (MsgChunk.toolMsg cid content)).1
        (MsgChunk.toolMsg cid content)).1
      = (handle_message_chunk st (MsgChunk.toolMsg cid content)).1
  ∧ (cid ≠ "" → ∀ name, name ≠ "" →
      dict_get cid (handle_tool_call
        (handle_message_chunk st (MsgChunk.toolMsg cid content)).1.tool_call_args
        ⟨some cid, some name, args⟩).1
      = some (dict_update [] args)) := by
  refine ⟨rfl, dict_get_filter_self cid _,
    fun k hk => dict_get_filter_ne cid k hk _, ?_, ?_⟩
  · simp only [handle_message_chunk]
    congr 1
    exact filter_ne_idem cid st.tool_call_args
  · intro hc name hn
    rw [show (handle_message_chunk st (MsgChunk.toolMsg cid content)).1.tool_call_args
        = st.tool_call_args.filter (fun p => p.1 ≠ cid) from rfl]
    have h := (handle_tool_call_valid
      (st.tool_call_args.filter (fun p => p.1 ≠ cid)) cid name args hc hn).1
    rw [dict_get_filter_self ] at h
    simpa using h

/-- C4 witness at a concrete input: releasing c1 and then requesting c1
again starts from a fresh empty entry. -/
theorem C4_release_witness :
    dict_get "c1" (handle_tool_call
      (handle_message_chunk ⟨"", [("c1", [("a", JVal.n 1)])]⟩
        (MsgChunk.toolMsg "c1" (JVal.s "ok"))).1.tool_call_args
      ⟨some "c1", some "gen", [("b", JVal.n 2)]⟩).1
    = some (dict_update [] [("b", JVal.n 2)]) :=
  (C4_release ⟨"", [("c1", [("a", JVal.n 1)])]⟩ "c1" (JVal.s "ok")
    [("b", JVal.n 2)]).2.2.2.2 (by decide) "gen" (by decide)

/-- C5: a tool-call entry whose id or name is missing, None or empty
produces zero output records, no error record, and leaves the
accumulator unchanged; sibling entries of the same chunk are processed
exactly as if the invalid entry were absent. -/
theorem C5_invalid_tool_call_dropped (acc : ArgsMap) (tc : ToolCallEntry)
    (pre post : List ToolCallEntry) (h : invalidToolCall tc = true) :
    handle_tool_call acc tc = (acc, [])
  ∧ run_tool_calls acc (pre ++ tc :: post) = run_tool_calls acc (pre ++ post) := by
  refine ⟨handle_tool_call_invalid acc tc h, ?_⟩
  induction pre generalizing acc with
  | nil =>
    simp [run_tool_calls, handle_tool_call_invalid acc tc h]
  | cons tc2 rest ih =>
    simp only [List.cons_append, run_tool_calls, List.append_eq]
    rw [ih ]

/-- C5 witness at a concrete input: an entry with a None name between two
valid siblings changes nothing. -/
theorem C5_invalid_tool_call_dropped_witness :
    handle_tool_call [] ⟨some "c2", none, [("a", JVal.n 1)]⟩ = ([], [])
  ∧ run_tool_calls []
      ([⟨some "c1", some "gen", [("a", JVal.n 1)]⟩]
        ++ (⟨some "c2", none, [("a", JVal.n 1)]⟩ : ToolCallEntry) :: [])
    = run_tool_calls [] ([⟨some "c1", some "gen", [("a", JVal.n 1)]⟩] ++ []) :=
  C5_invalid_tool_call_dropped [] ⟨some "c2", none, [("a", JVal.n 1)]⟩
    [⟨some "c1", some "gen", [("a", JVal.n 1)]⟩] [] (by decide)

/-- C7: a `tool_call_chunk` record is emitted for a fragment entry iff its
args payload is truthy (present and non-empty), carrying index (default
0), id and the raw fragment; and fragment processing performs no
accumulator interaction: the processor state after an AI chunk does not
depend on its `tool_call_chunks` at all, and a chunk with only fragments
leaves the state identical. -/
theorem C7_fragment_iff_frame (st : ProcState) (content : Option String)
    (tcs : List ToolCallEntry) (tccs : List TCChunkEntry) (e : TCChunkEntry) :
    (handle_tool_call_chunk e ≠ [] ↔ ∃ a, e.args = some a ∧ a ≠ "")
  ∧ (∀ a, e.args = some a → a ≠ "" →
      handle_tool_call_chunk e = [Record.toolCallChunk (e.index.getD 0) e.id a])
  ∧ (handle_message_chunk st (MsgChunk.aiChunk content tcs tccs)).1
      = (handle_message_chunk st (MsgChunk.aiChunk content tcs [])).1
  ∧ handle_message_chunk st (MsgChunk.aiChunk none [] tccs)
      = (st, (tccs.map handle_tool_call_chunk).flatten) := by
  refine ⟨?_, ?_, rfl, rfl⟩
  · unfold handle_tool_call_chunk
    cases ha : e.args with
    | none => simp
    | some a =>
      by_cases h : a = "" <;> simp [h]
  · intro a ha hne
    unfold handle_tool_call_chunk
    rw [ha ]
    simp [hne]

/-- C7 witness at a concrete input: a fragment with non-empty args is
forwarded as one `tool_call_chunk` record. -/
theorem C7_fragment_iff_frame_witness :
    handle_tool_call_chunk ⟨some 0, some "c1", some "ab"⟩
      = [Record.toolCallChunk 0 (some "c1") "ab"] :=
  (C7_fragment_iff_frame initProcState none [] []
    ⟨some 0, some "c1", some "ab"⟩).2.1 "ab" rfl (by decide)

/-- C8 counterexample: the claim says every `values`-tagged pair emits
exactly one `messages` record, but a snapshot whose message list is empty
emits zero records (`_handle_values_chunk` guards on `if all_messages`). -/
theorem C8_counterexample :
    (handle_chunk initProcState (Chunk.tagged "values" (ChunkData.dict []))).2
      = [] := by
  simp [handle_chunk, handle_values_chunk]

/-- C8 amended: a `values`-tagged pair with a non-empty snapshot emits
exactly one `messages` record whose payload is the snapshot normalized to
the wire message shape (role/content/tool_calls only, internal-only
fields stripped); an empty snapshot emits zero records. -/
theorem C8_values_snapshot (st : ProcState) (msgs : List StateMsg) :
    handle_chunk st (Chunk.tagged "values" (ChunkData.dict msgs))
      = (st, if msgs = [] then []
          else [Record.messages (convert_to_openai_messages msgs)])
  ∧ convert_to_openai_messages msgs
      = msgs.map (fun m => ⟨m.role, m.content, m.tool_calls⟩) := by
  constructor
  · simp [handle_chunk, handle_values_chunk]
  · rfl

/-- C9: a `TextDelta` unit with non-empty, non-None content yields exactly
one `delta` record carrying that content, while empty or None content
yields zero records; the log-buffer aggregation only touches the buffer
state and never alters or suppresses the emitted records, and inside a
full AI chunk the delta is emitted first. -/
theorem C9_text_delta (st : ProcState) (c buf1 buf2 : String) (acc : ArgsMap)
    (tcs : List ToolCallEntry) (tccs : List TCChunkEntry) :
    (c ≠ "" → (handle_text_content st (some c)).2 = [Record.delta c])
  ∧ (handle_text_content st (some "")).2 = []
  ∧ (handle_text_content st none).2 = []
  ∧ (handle_text_content ⟨buf1, acc⟩ (some c)).2
      = (handle_text_content ⟨buf2, acc⟩ (some c)).2
  ∧ (c ≠ "" →
      (handle_message_chunk st (MsgChunk.aiChunk (some c) tcs tccs)).2
        = Record.delta c
            :: ((run_tool_calls
                  (handle_text_content st (some c)).1.tool_call_args tcs).2
              ++ (tccs.map handle_tool_call_chunk).flatten)) := by
  refine ⟨?_, rfl, rfl, ?_, ?_⟩
  · intro h
    simp [handle_text_content, h]
  · simp only [handle_text_content]
    by_cases h : c = "" <;> simp [h]
  · intro h
    simp [handle_message_chunk, handle_text_content, h]

/-- C9 witness at a concrete input: content "Hi" yields one delta record. -/
theorem C9_text_delta_witness :
    (handle_text_content initProcState (some "Hi")).2 = [Record.delta "Hi"] :=
  (C9_text_delta initProcState "Hi" "" "" [] [] []).1 (by decide)

theorem to_langchain_messages_foldl (acc : List LCMsg) (messages : List InMsg) :
    messages.foldl (fun a msg =>
      if msg.role = some "user" then a ++ [LCMsg.human (msg.content.getD "")]
      else if msg.role = some "assistant" then
        a ++ [LCMsg.assistant (msg.content.getD "")]
      else a) acc
    = acc ++ messages.filterMap (fun msg =>
        if msg.role = some "user" then some (LCMsg.human (msg.content.getD ""))
        else if msg.role = some "assistant" then
          some (LCMsg.assistant (msg.content.getD ""))
        else none) := by
  induction messages generalizing acc with
  | nil => simp
  | cons m rest ih =>
    simp only [List.foldl_cons, List.filterMap_cons]
    by_cases h1 : m.role = some "user"
    · simp [h1, ih]
    · by_cases h2 : m.role = some "assistant"
      · simp [h1, h2, ih]
      · simp [h1, h2, ih]

/-- C10: the conversation conversion forwards exactly the messages whose
role is "user" or "assistant" (as human/assistant messages, content
defaulting to "" when absent) and silently drops every other role,
including "tool". -/
theorem C10_role_filter (messages : List InMsg) (m : InMsg)
    (pre post : List InMsg) :
    to_langchain_messages messages
      = messages.filterMap (fun msg =>
          if msg.role = some "user" then some (LCMsg.human (msg.content.getD ""))
          else if msg.role = some "assistant" then
            some (LCMsg.assistant (msg.content.getD ""))
          else none)
  ∧ (m.role ≠ some "user" → m.role ≠ some "assistant" →
      to_langchain_messages (pre ++ m :: post)
        = to_langchain_messages (pre ++ post))
  ∧ to_langchain_messages [⟨some "user", none⟩] = [LCMsg.human ""]
  ∧ to_langchain_messages [⟨some "tool", some "result"⟩] = [] := by
  refine ⟨to_langchain_messages_foldl [] messages, ?_, rfl, rfl⟩
  intro h1 h2
  unfold to_langchain_messages
  rw [to_langchain_messages_foldl, to_langchain_messages_foldl ]
  simp [List.filterMap_append, List.filterMap_cons, h1, h2]

/-- C10 witness at a concrete input: a tool-role message between user
messages is dropped from the converted conversation. -/
theorem C10_role_filter_witness :
    to_langchain_messages
        ([⟨some "user", some "hi"⟩] ++ (⟨some "tool", some "res"⟩ : InMsg) :: [])
      = to_langchain_messages ([⟨some "user", some "hi"⟩] ++ []) :=
  (C10_role_filter [] ⟨some "tool", some "res"⟩ [⟨some "user", some "hi"⟩] []).2.1
    (by decide) (by decide)
